import Mathlib

/-!
Verification of the conversation-to-answer orchestration core of the
`Contratos` RAG backend (`app/backend/approaches/`).

Shallow embedding of:
  * `ChatApproach.get_messages_from_history` (chatapproach.py, lines 113-144),
  * `ChatApproach.extract_followup_questions` (line 110-111),
  * the streaming follow-up state machine of `ChatApproach.run_with_streaming`
    (lines 189-221),
  * `ChatApproach.get_search_query` (lines 92-108),
  * the retrieval-parameter computation of
    `ChatReadRetrieveReadVisionApproach.run_until_final_call`
    (chatreadretrievereadvision.py, lines 87-95, 102-110, 137-150) and
    `RetrieveThenReadApproach.run` (retrievethenread.py, lines 81-107).

Strings manipulated character by character are embedded as `List Char`
(`String.data`); token counting is an external collaborator and is passed in
as a function argument.
-/

namespace Contratos

/-- A chat message as used by the prompt assembler: a role string and textual
content.  (The vision variant can pass structured multimodal user content;
the claims checked here only concern the assembler's ordering and budget
logic, for which the content is opaque to everything except the abstract
token counter, so textual content suffices.) -/
structure Message where
  role : String
  content : String
deriving DecidableEq, Repr

/-- Modelled from the spec: `core.messagebuilder.MessageBuilder` is imported
by `chatapproach.py` but its module is not among the sources.  Per spec §4.1
the builder keeps an ordered message list whose index 0 is the system
message, and `insert_message(role, content, index)` inserts at the given
position with Python `list.insert` semantics (an index at or beyond the end
appends).  This is that insert operation for non-negative indices. -/
def pyInsert : List Message → Nat → Message → List Message
  | l, 0, m => m :: l
  | [], _ + 1, m => [m]
  | x :: l, i + 1, m => x :: pyInsert l i m

/-- Total estimated token cost of a message list under the abstract token
counter `count` (spec §6, `countTokens`): the running sum computed at
chatapproach.py lines 132-134. -/
def totalTokens (count : Message → Nat) (msgs : List Message) : Nat :=
  (msgs.map count).sum

/-- The history-truncation loop of `get_messages_from_history`
(chatapproach.py lines 137-143): walk `rest` (already newest-to-oldest),
stop at the first message whose cost would push `total` over `maxTokens`,
otherwise insert it at `appendIndex` and continue. -/
def insertHistoryLoop (count : Message → Nat) (maxTokens : Nat) (appendIndex : Nat) :
    List Message → List Message → Nat → List Message
  | [], msgs, _ => msgs
  | m :: rest, msgs, total =>
    if total + count m > maxTokens then msgs
    else insertHistoryLoop count maxTokens appendIndex rest
      (pyInsert msgs appendIndex m) (total + count m)

/-- Embeds `ChatApproach.get_messages_from_history` (chatapproach.py lines
113-144): system message first, few-shots each inserted at index 1 in
reverse order, the new user turn at `len(few_shots) + 1`, then history
(minus its last entry) walked newest-to-oldest under the token budget. -/
def get_messages_from_history (count : Message → Nat) (systemPrompt : String)
    (history : List Message) (userContent : String) (maxTokens : Nat)
    (fewShots : List Message) : List Message :=
  let initial : List Message := [⟨"system", systemPrompt⟩]
  let withShots := fewShots.reverse.foldl (fun msgs shot => pyInsert msgs 1 shot) initial
  let appendIndex := fewShots.length + 1
  let withUser := pyInsert withShots appendIndex ⟨"user", userContent⟩
  let total := totalTokens count withUser
  insertHistoryLoop count maxTokens appendIndex (history.dropLast).reverse withUser total

/-- The sequence of history messages (given newest-to-oldest) accepted by the
truncation loop before its single cutoff, in the order the loop visits them.
Used to characterise `get_messages_from_history` structurally. -/
def budgetTake (count : Message → Nat) (maxTokens : Nat) :
    List Message → Nat → List Message
  | [], _ => []
  | m :: rest, total =>
    if total + count m > maxTokens then []
    else m :: budgetTake count maxTokens rest (total + count m)

/-- A concrete token counter (content length) used for concrete instances. -/
def lenCount (m : Message) : Nat :=
  m.content.length

/-! Follow-up-question marker machinery, over `List Char`. -/

/-- Whether the open marker `<<` occurs in the character list (Python
`"<<" in content`). -/
def hasMarker : List Char → Bool
  | [] => false
  | c :: rest => (c = '<' && rest.head? = some '<') || hasMarker rest

/-- Whether the close marker `>>` occurs in the character list. -/
def hasClose : List Char → Bool
  | [] => false
  | c :: rest => (c = '>' && rest.head? = some '>') || hasClose rest

/-- The prefix of the character list strictly before the first `<<`, or the
whole list if there is none: Python `content.split("<<")[0]`, also
`content[: content.index("<<")]` when the marker is present. -/
def beforeMarker : List Char → List Char
  | [] => []
  | c :: rest => if c = '<' && rest.head? = some '<' then [] else c :: beforeMarker rest

/-- The suffix of the character list from the first `<<` on, or `[]` if there
is none: Python `content[content.index("<<") :]` when the marker is
present. -/
def fromMarker : List Char → List Char
  | [] => []
  | c :: rest => if c = '<' && rest.head? = some '<' then c :: rest else fromMarker rest

/-- One attempt of the regex `<<([^>]+)>>` just after an already-matched
`<<`: the group takes a maximal nonempty run of non-`>` characters which
must be followed by `>>` (greedy matching with no useful backtracking, since
shortening the group leaves a non-`>` character where `>>` is required).
Returns the captured group and the remainder after the match. -/
def tryQuestion (l : List Char) : Option (List Char × List Char) :=
  if l.takeWhile (fun c => c ≠ '>') = [] then none
  else if (l.dropWhile (fun c => c ≠ '>')).head? = some '>'
      && (l.dropWhile (fun c => c ≠ '>')).tail.head? = some '>' then
    some (l.takeWhile (fun c => c ≠ '>'), (l.dropWhile (fun c => c ≠ '>')).tail.tail)
  else none

/-- The left-to-right scan of `re.findall(r"<<([^>>]+)>>", content)`: at each
position, if `<<` starts here try to complete a match (consuming it on
success), otherwise advance one character.  The scan advances at least one
character per step, so an explicit fuel of the input length suffices and
keeps the recursion structural. -/
def findallAux : Nat → List Char → List (List Char)
  | 0, _ => []
  | _ + 1, [] => []
  | fuel + 1, c :: rest =>
    if c = '<' && rest.head? = some '<' then
      match tryQuestion rest.tail with
      | some (q, rest') => q :: findallAux fuel rest'
      | none => findallAux fuel rest
    else findallAux fuel rest

/-- All captures of `re.findall(r"<<([^>>]+)>>", content)`, in order. -/
def findall (l : List Char) : List (List Char) :=
  findallAux l.length l

/-- Embeds `ChatApproach.extract_followup_questions` (chatapproach.py line
110-111): `content.split("<<")[0]` paired with the `<<([^>>]+)>>`
captures. -/
def extract_followup_questions (content : String) : String × List String :=
  (⟨beforeMarker content.data⟩, (findall content.data).map fun q => ⟨q⟩)

/-! The streaming follow-up state machine of `run_with_streaming`
(chatapproach.py lines 189-208).  Per-request state is the pair
`(followup_questions_started, followup_content)`; each content-bearing delta
yields a (possibly empty) batch of visible content chunks. -/

/-- One iteration of the delta loop (lines 194-208) for a delta with content
`content`; `suggest` is the truthiness of
`overrides.get("suggest_followup_questions")`.  Returns the updated state
and the visible content chunks emitted for this delta. -/
def stepDelta (suggest : Bool) (started : Bool) (buffer : List Char)
    (content : List Char) : (Bool × List Char) × List (List Char) :=
  if suggest && hasMarker content then
    ((true, buffer ++ fromMarker content),
      if beforeMarker content ≠ [] then [beforeMarker content] else [])
  else if started then
    ((started, buffer ++ content), [])
  else
    ((started, buffer), [content])

/-- The delta loop run from an arbitrary state, returning the final state and
the list of emitted visible content chunks, in order. -/
def runStreamFrom (suggest : Bool) (st : Bool × List Char) :
    List (List Char) → (Bool × List Char) × List (List Char)
  | [] => (st, [])
  | d :: ds =>
    let next := stepDelta suggest st.1 st.2 d
    let rest := runStreamFrom suggest next.1 ds
    (rest.1, next.2 ++ rest.2)

/-- The whole streaming post-processing pass over the content deltas: starts
with `followup_questions_started = False` and an empty buffer (lines
189-190). -/
def runStream (suggest : Bool) (deltas : List (List Char)) :
    (Bool × List Char) × List (List Char) :=
  runStreamFrom suggest (false, []) deltas

/-- The follow-up questions carried by the final synthetic event (lines
209-221): extracted from the buffer when it is nonempty, no event (hence no
questions) otherwise. -/
def streamFollowups (suggest : Bool) (deltas : List (List Char)) : List (List Char) :=
  let buffer := (runStream suggest deltas).1.2
  if buffer ≠ [] then findall buffer else []

/-! `ChatApproach.get_search_query` (chatapproach.py lines 92-108). -/

/-- The sentinel `ChatApproach.NO_RESPONSE`. -/
def NO_RESPONSE : String := "0"

/-- Python `str.isspace()` for a single character: the exact set of code
points CPython treats as whitespace, namely U+0009..U+000D, U+001C..U+001F,
U+0020, U+0085, U+00A0, U+1680, U+2000..U+200A, U+2028, U+2029, U+202F,
U+205F and U+3000. -/
def pyIsSpace (c : Char) : Bool :=
  (0x09 ≤ c.toNat && c.toNat ≤ 0x0d) || (0x1c ≤ c.toNat && c.toNat ≤ 0x1f)
    || c.toNat = 0x20 || c.toNat = 0x85 || c.toNat = 0xa0 || c.toNat = 0x1680
    || (0x2000 ≤ c.toNat && c.toNat ≤ 0x200a) || c.toNat = 0x2028
    || c.toNat = 0x2029 || c.toNat = 0x202f || c.toNat = 0x205f
    || c.toNat = 0x3000

/-- Python `str.strip()`: drop the characters of `pyIsSpace` from both
ends. -/
def pyStrip (s : String) : String :=
  ⟨((s.data.dropWhile pyIsSpace).reverse.dropWhile pyIsSpace).reverse⟩

/-- A tool call on the completion's first-choice message.  `arguments` models
the JSON object produced by `json.loads(function.arguments)` as a
string-valued association list. -/
structure ToolCall where
  type : String
  name : String
  arguments : List (String × String)
deriving DecidableEq, Repr

/-- The completion's first-choice message: its tool calls (an absent or
`None` field is the empty list, which has the same truthiness) and its
optional text content. -/
structure ResponseMessage where
  tool_calls : List ToolCall
  content : Option String
deriving DecidableEq, Repr

/-- The `for tool in response_message.tool_calls` loop (lines 96-104):
skip non-function tool calls, and for each one named `search_sources`
return the parsed `search_query` argument (defaulting to the sentinel when
the key is absent) unless it equals the sentinel. -/
def searchFromToolCalls : List ToolCall → Option String
  | [] => none
  | tool :: rest =>
    if tool.type ≠ "function" then searchFromToolCalls rest
    else if tool.name = "search_sources" then
      let search_query := (tool.arguments.lookup "search_query").getD NO_RESPONSE
      if search_query ≠ NO_RESPONSE then some search_query
      else searchFromToolCalls rest
    else searchFromToolCalls rest

/-- Embeds `ChatApproach.get_search_query` (lines 92-108).  The `elif` branch
is reached only when `tool_calls` is falsy; `query_text := content` is truthy
only for a nonempty string. -/
def get_search_query (rm : ResponseMessage) (user_query : String) : String :=
  if rm.tool_calls ≠ [] then
    match searchFromToolCalls rm.tool_calls with
    | some q => q
    | none => user_query
  else
    match rm.content with
    | some query_text =>
      if query_text ≠ "" then
        if pyStrip query_text ≠ NO_RESPONSE then query_text else user_query
      else user_query
    | none => user_query

/-! Retrieval-parameter computation shared in shape by
`ChatReadRetrieveReadVisionApproach.run_until_final_call`
(chatreadretrievereadvision.py lines 87-95 and 137-150) and
`RetrieveThenReadApproach.run` (retrievethenread.py lines 81-107). -/

/-- The override flags that determine the search call's parameters.  The two
boolean fields model the Python truthiness of `overrides.get(...)` for keys
`semantic_ranker` and `semantic_captions`; `retrieval_mode` is
`overrides.get("retrieval_mode")` with `none` for an absent key. -/
structure Overrides where
  retrieval_mode : Option String
  semantic_ranker : Bool
  semantic_captions : Bool
deriving DecidableEq, Repr

/-- The arguments this core passes to the `search` collaborator that the
claims constrain: the (nullable) text query and the two semantic toggles
(by truthiness). -/
structure SearchArgs where
  query_text : Option String
  use_semantic_ranker : Bool
  use_semantic_captions : Bool
deriving DecidableEq, Repr

/-- Embeds the search-call parameters of
`ChatReadRetrieveReadVisionApproach.run_until_final_call`:
`has_text = retrieval_mode in ["text", "hybrid", None]` (line 87),
`use_semantic_captions = True if overrides.get("semantic_captions") and
has_text else False` (line 90), `use_semantic_ranker` likewise (line 95),
and `query_text = None` when `not has_text` (lines 138-139), else the
distilled query `queryText`. -/
def vision_search_args (o : Overrides) (queryText : String) : SearchArgs :=
  let has_text : Bool :=
    (o.retrieval_mode == some "text") || (o.retrieval_mode == some "hybrid")
      || (o.retrieval_mode == none)
  { query_text := if has_text then some queryText else none
    use_semantic_ranker := o.semantic_ranker && has_text
    use_semantic_captions := o.semantic_captions && has_text }

/-- Embeds the search-call parameters of `RetrieveThenReadApproach.run`
(retrievethenread.py lines 81-96): `use_semantic_ranker =
overrides.get("semantic_ranker") and has_text` (line 83, truthiness),
`use_semantic_captions` as the vision variant (line 85), and
`query_text = q if has_text else None` (line 96) for the raw user
question `q`. -/
def rtr_search_args (o : Overrides) (q : String) : SearchArgs :=
  let has_text : Bool :=
    (o.retrieval_mode == some "text") || (o.retrieval_mode == some "hybrid")
      || (o.retrieval_mode == none)
  { query_text := if has_text then some q else none
    use_semantic_ranker := o.semantic_ranker && has_text
    use_semantic_captions := o.semantic_captions && has_text }

/-! The query-distillation token ceiling of
`ChatReadRetrieveReadVisionApproach.run_until_final_call` (lines 103,
110). -/

/-- The rewritten request string of line 103:
`"Generate search query for: " + original_user_query`. -/
def user_query_request (originalUserQuery : String) : String :=
  "Generate search query for: " ++ originalUserQuery

/-- Python `" ".join(s)` applied to a string `s`: its characters interleaved
with single spaces. -/
def spaceJoinChars : List Char → List Char
  | [] => []
  | [c] => [c]
  | c :: c2 :: rest => c :: ' ' :: spaceJoinChars (c2 :: rest)

/-- Embeds the `max_tokens` argument passed to the assembler for the
query-distillation step (line 110):
`self.chatgpt_token_limit - len(" ".join(user_query_request))`. -/
def query_distillation_max_tokens (chatgptTokenLimit : Int)
    (originalUserQuery : String) : Int :=
  chatgptTokenLimit -
    ((spaceJoinChars (user_query_request originalUserQuery).data).length : Int)

/-! ### Structural characterisation of the prompt assembler -/

theorem pyInsert_split (pre post : List Message) (m : Message) :
    pyInsert (pre ++ post) pre.length m = pre ++ m :: post := by
  induction pre with
  | nil => simp [pyInsert]
  | cons x pre ih => simp [pyInsert, ih]

theorem foldShots (fs : List Message) (S : Message) :
    ∀ acc : List Message,
      fs.foldl (fun msgs shot => pyInsert msgs 1 shot) (S :: acc)
        = S :: (fs.reverse ++ acc) := by
  induction fs with
  | nil => intro acc; simp
  | cons f fs ih =>
    intro acc
    have h1 : pyInsert (S :: acc) 1 f = S :: f :: acc := by
      simpa using pyInsert_split [S] acc f
    simp only [List.foldl_cons, h1, ih (f :: acc), List.reverse_cons,
      List.append_assoc, List.singleton_append]

theorem loop_structure (count : Message → Nat) (T : Nat) (S u : Message)
    (fs : List Message) :
    ∀ (rest mid : List Message) (total : Nat),
      insertHistoryLoop count T (fs.length + 1) rest ((S :: fs) ++ mid ++ [u]) total
        = (S :: fs) ++ ((budgetTake count T rest total).reverse ++ mid) ++ [u] := by
  intro rest
  induction rest with
  | nil => intro mid total; simp [insertHistoryLoop, budgetTake]
  | cons m rest ih =>
    intro mid total
    by_cases h : total + count m > T
    · simp [insertHistoryLoop, budgetTake, h]
    · have hins : pyInsert ((S :: fs) ++ mid ++ [u]) (fs.length + 1) m
          = (S :: fs) ++ (m :: mid) ++ [u] := by
        rw [List.append_assoc]
        have h2 := pyInsert_split (S :: fs) (mid ++ [u]) m
        simp only [List.length_cons] at h2
        rw [h2]
        simp
      simp only [insertHistoryLoop, if_neg h]
      rw [hins, ih (m :: mid) (total + count m)]
      simp only [budgetTake, if_neg h, List.reverse_cons, List.append_assoc,
        List.singleton_append, List.cons_append, List.nil_append]

/-- The assembled prompt is exactly: system message, the few-shots in order,
the accepted history messages reinserted in chronological order, then the
new user turn. -/
theorem get_messages_from_history_eq (count : Message → Nat) (sys user : String)
    (history fs : List Message) (T : Nat) :
    get_messages_from_history count sys history user T fs
      = (⟨"system", sys⟩ :: fs)
        ++ (budgetTake count T (history.dropLast).reverse
              (totalTokens count ((⟨"system", sys⟩ :: fs) ++ [⟨"user", user⟩]))).reverse
        ++ [⟨"user", user⟩] := by
  have h1 : fs.reverse.foldl (fun msgs shot => pyInsert msgs 1 shot)
      [(⟨"system", sys⟩ : Message)] = ⟨"system", sys⟩ :: fs := by
    simpa using foldShots fs.reverse ⟨"system", sys⟩ []
  have h2 : pyInsert (⟨"system", sys⟩ :: fs) (fs.length + 1) ⟨"user", user⟩
      = (⟨"system", sys⟩ :: fs) ++ [⟨"user", user⟩] := by
    simpa using pyInsert_split (⟨"system", sys⟩ :: fs) [] ⟨"user", user⟩
  have h3 := loop_structure count T ⟨"system", sys⟩ ⟨"user", user⟩ fs
    (history.dropLast).reverse []
    (totalTokens count ((⟨"system", sys⟩ :: fs) ++ [⟨"user", user⟩]))
  simp only [get_messages_from_history, h1, h2]
  simpa using h3

theorem budgetTake_sum_le (count : Message → Nat) (T : Nat) :
    ∀ (l : List Message) (total : Nat), total ≤ T →
      total + totalTokens count (budgetTake count T l total) ≤ T := by
  intro l
  induction l with
  | nil => intro total h; simpa [budgetTake, totalTokens] using h
  | cons m rest ih =>
    intro total h
    by_cases hc : total + count m > T
    · simpa [budgetTake, hc, totalTokens] using h
    · have h2 := ih (total + count m) (by omega)
      simp only [budgetTake, if_neg hc, totalTokens, List.map_cons,
        List.sum_cons] at h2 ⊢
      omega

theorem budgetTake_take (count : Message → Nat) (T : Nat) :
    ∀ (k : Nat) (l : List Message) (total : Nat), k < l.length →
      (∀ j, j < k → total + totalTokens count (l.take (j + 1)) ≤ T) →
      total + totalTokens count (l.take (k + 1)) > T →
      budgetTake count T l total = l.take k := by
  intro k
  induction k with
  | zero =>
    intro l total hlen _ hover
    match l with
    | m :: rest =>
      simp only [List.take_succ_cons, List.take_zero, totalTokens,
        List.map_cons, List.map_nil, List.sum_cons, List.sum_nil] at hover
      simp [budgetTake, show total + count m > T by omega]
  | succ k ih =>
    intro l total hlen hfit hover
    match l with
    | m :: rest =>
      have h0 : total + count m ≤ T := by
        have h1 := hfit 0 (Nat.succ_pos k)
        simp only [List.take_succ_cons, List.take_zero, totalTokens,
          List.map_cons, List.map_nil, List.sum_cons, List.sum_nil] at h1
        omega
      have hc : ¬ (total + count m > T) := by omega
      have hlen' : k < rest.length := by
        simpa using Nat.lt_of_succ_lt_succ hlen
      have hfit' : ∀ j, j < k →
          (total + count m) + totalTokens count (rest.take (j + 1)) ≤ T := by
        intro j hj
        have h1 := hfit (j + 1) (Nat.succ_lt_succ hj)
        simp only [List.take_succ_cons, totalTokens, List.map_cons,
          List.sum_cons] at h1
        simp only [totalTokens]
        omega
      have hover' : (total + count m) + totalTokens count (rest.take (k + 1)) > T := by
        simp only [List.take_succ_cons, totalTokens, List.map_cons,
          List.sum_cons] at hover
        simp only [totalTokens]
        omega
      simp only [budgetTake, if_neg hc, List.take_succ_cons,
        ih rest (total + count m) hlen' hfit' hover']

theorem totalTokens_structure (count : Message → Nat) (S u : Message)
    (fs mid : List Message) :
    totalTokens count ((S :: fs) ++ mid ++ [u])
      = totalTokens count ((S :: fs) ++ [u]) + totalTokens count mid := by
  simp [totalTokens]
  omega

/-- C3 (amended): the assembled prompt's total estimated token cost is at
most the ceiling `T` whenever `T` is at least the combined cost of all
mandatory messages (system prompt, few-shots, and new user turn); and the
system prompt is at index 0 and the new user turn is last, unconditionally. -/
theorem get_messages_from_history_budget (count : Message → Nat) (sys user : String)
    (history fs : List Message) (T : Nat) :
    (totalTokens count ((⟨"system", sys⟩ :: fs) ++ [⟨"user", user⟩]) ≤ T →
      totalTokens count (get_messages_from_history count sys history user T fs) ≤ T)
    ∧ (get_messages_from_history count sys history user T fs).head?
        = some ⟨"system", sys⟩
    ∧ (get_messages_from_history count sys history user T fs).getLast?
        = some ⟨"user", user⟩ := by
  rw [get_messages_from_history_eq]
  refine ⟨?_, rfl, ?_⟩
  · intro h
    have h2 := budgetTake_sum_le count T (history.dropLast).reverse _ h
    rw [totalTokens_structure]
    simp only [totalTokens, List.map_reverse, List.sum_reverse] at h2 ⊢
    omega
  · rw [show (⟨"system", sys⟩ :: fs)
        ++ (budgetTake count T (history.dropLast).reverse
              (totalTokens count ((⟨"system", sys⟩ :: fs) ++ [⟨"user", user⟩]))).reverse
        ++ [(⟨"user", user⟩ : Message)]
      = ((⟨"system", sys⟩ :: fs)
          ++ (budgetTake count T (history.dropLast).reverse
                (totalTokens count ((⟨"system", sys⟩ :: fs) ++ [⟨"user", user⟩]))).reverse)
          ++ [⟨"user", user⟩] by simp]
    exact List.getLast?_concat _

/-- C3 witness: a concrete instantiation of
`get_messages_from_history_budget` with its budget hypothesis discharged. -/
theorem get_messages_from_history_budget_witness :
    totalTokens lenCount
        (get_messages_from_history lenCount "ss" [⟨"user", "hhh"⟩, ⟨"user", "nn"⟩]
          "uu" 10 [⟨"user", "ff"⟩]) ≤ 10
    ∧ (get_messages_from_history lenCount "ss" [⟨"user", "hhh"⟩, ⟨"user", "nn"⟩]
          "uu" 10 [⟨"user", "ff"⟩]).head? = some ⟨"system", "ss"⟩
    ∧ (get_messages_from_history lenCount "ss" [⟨"user", "hhh"⟩, ⟨"user", "nn"⟩]
          "uu" 10 [⟨"user", "ff"⟩]).getLast? = some ⟨"user", "uu"⟩ := by
  have h := get_messages_from_history_budget lenCount "ss" "uu"
    [⟨"user", "hhh"⟩, ⟨"user", "nn"⟩] [⟨"user", "ff"⟩] 10
  exact ⟨h.1 (by decide), h.2.1, h.2.2⟩

/-- C3 counterexample: with a token ceiling `T = 2` that covers the combined
cost of the system prompt and the new user turn (1 + 1), a costly few-shot
still enters the prompt and the total cost 6 exceeds `T`. -/
theorem get_messages_from_history_budget_cex :
    lenCount ⟨"system", "s"⟩ + lenCount ⟨"user", "u"⟩ ≤ 2
    ∧ totalTokens lenCount
        (get_messages_from_history lenCount "s" [] "u" 2 [⟨"user", "ffff"⟩]) > 2 := by
  decide

/-- C4: if the `k`-th history message (walking newest to oldest, the newest
entry excluded) is the first whose cost would push the running total over
the ceiling, then the assembled prompt contains exactly the `k` newer
messages (reinserted in chronological order) and drops that message and
every older one. -/
theorem get_messages_from_history_cutoff (count : Message → Nat) (sys user : String)
    (history fs : List Message) (T k : Nat)
    (hk : k < ((history.dropLast).reverse).length)
    (hfit : ∀ j, j < k →
      totalTokens count ((⟨"system", sys⟩ :: fs) ++ [⟨"user", user⟩])
        + totalTokens count (((history.dropLast).reverse).take (j + 1)) ≤ T)
    (hover : totalTokens count ((⟨"system", sys⟩ :: fs) ++ [⟨"user", user⟩])
        + totalTokens count (((history.dropLast).reverse).take (k + 1)) > T) :
    get_messages_from_history count sys history user T fs
      = (⟨"system", sys⟩ :: fs) ++ (((history.dropLast).reverse).take k).reverse
        ++ [⟨"user", user⟩] := by
  rw [get_messages_from_history_eq,
    budgetTake_take count T k ((history.dropLast).reverse) _ hk hfit hover]

/-- C4 witness: ceiling 5; the newer history item (cost 2) fits on top of
the mandatory cost 2, the older one (cost 4) is the first that overflows at
position `k = 1` and is cut off together with everything older. -/
theorem get_messages_from_history_cutoff_witness :
    get_messages_from_history lenCount "s"
        [⟨"user", "aaaa"⟩, ⟨"user", "bb"⟩, ⟨"user", "zz"⟩] "u" 5 []
      = [⟨"system", "s"⟩, ⟨"user", "bb"⟩, ⟨"user", "u"⟩] := by
  have h := get_messages_from_history_cutoff lenCount "s" "u"
    [⟨"user", "aaaa"⟩, ⟨"user", "bb"⟩, ⟨"user", "zz"⟩] [] 5 1
    (by decide)
    (by
      intro j hj
      have hj0 : j = 0 := by omega
      subst hj0
      decide)
    (by decide)
  simpa using h

/-- C5 (amended): for the three-turn history with `"Q2"` consumed as the new
user turn and a ceiling covering every message, the assembled prompt is
`[system, ...few-shots, Q1, A1, Q2]`: the retained history turns keep their
chronological order `Q1` then `A1` after the few-shot block, and the new
user turn is last. -/
theorem get_messages_from_history_three_turns (count : Message → Nat) (sys : String)
    (fs : List Message) (T : Nat)
    (h : totalTokens count ((⟨"system", sys⟩ :: fs) ++ [⟨"user", "Q2"⟩])
        + count ⟨"assistant", "A1"⟩ + count ⟨"user", "Q1"⟩ ≤ T) :
    get_messages_from_history count sys
        [⟨"user", "Q1"⟩, ⟨"assistant", "A1"⟩, ⟨"user", "Q2"⟩] "Q2" T fs
      = (⟨"system", sys⟩ :: fs)
        ++ [⟨"user", "Q1"⟩, ⟨"assistant", "A1"⟩, ⟨"user", "Q2"⟩] := by
  rw [get_messages_from_history_eq]
  have hd : (([⟨"user", "Q1"⟩, ⟨"assistant", "A1"⟩, ⟨"user", "Q2"⟩] :
      List Message).dropLast).reverse = [⟨"assistant", "A1"⟩, ⟨"user", "Q1"⟩] := rfl
  rw [hd]
  have h1 : ¬ (totalTokens count ((⟨"system", sys⟩ :: fs) ++ [⟨"user", "Q2"⟩])
      + count ⟨"assistant", "A1"⟩ > T) := by omega
  have h2 : ¬ (totalTokens count ((⟨"system", sys⟩ :: fs) ++ [⟨"user", "Q2"⟩])
      + count ⟨"assistant", "A1"⟩ + count ⟨"user", "Q1"⟩ > T) := by omega
  simp only [budgetTake, if_neg h1, if_neg h2]
  simp

/-- C5 amended-claim witness: concrete instantiation with a length-based
counter and an ample ceiling. -/
theorem get_messages_from_history_three_turns_witness :
    get_messages_from_history lenCount "s"
        [⟨"user", "Q1"⟩, ⟨"assistant", "A1"⟩, ⟨"user", "Q2"⟩] "Q2" 100 []
      = [⟨"system", "s"⟩, ⟨"user", "Q1"⟩, ⟨"assistant", "A1"⟩, ⟨"user", "Q2"⟩] := by
  have h := get_messages_from_history_three_turns lenCount "s" [] 100 (by decide)
  simpa using h

/-- C5 counterexample: on the claim's own scenario the retained history
turns come out in chronological order `Q1, A1`, not in the claimed order
`A1, Q1`. -/
theorem get_messages_from_history_three_turns_cex :
    get_messages_from_history lenCount "s"
        [⟨"user", "Q1"⟩, ⟨"assistant", "A1"⟩, ⟨"user", "Q2"⟩] "Q2" 100 []
      = [⟨"system", "s"⟩, ⟨"user", "Q1"⟩, ⟨"assistant", "A1"⟩, ⟨"user", "Q2"⟩]
    ∧ ¬ (get_messages_from_history lenCount "s"
        [⟨"user", "Q1"⟩, ⟨"assistant", "A1"⟩, ⟨"user", "Q2"⟩] "Q2" 100 []
      = [⟨"system", "s"⟩, ⟨"assistant", "A1"⟩, ⟨"user", "Q1"⟩, ⟨"user", "Q2"⟩]) := by
  decide

/-! ### Marker lemmas -/

theorem beforeMarker_append_fromMarker (l : List Char) :
    beforeMarker l ++ fromMarker l = l := by
  induction l with
  | nil => rfl
  | cons c rest ih =>
    simp only [beforeMarker, fromMarker]
    by_cases h : (decide (c = '<') && decide (rest.head? = some '<')) = true
    · rw [if_pos h, if_pos h, List.nil_append]
    · rw [if_neg h, if_neg h, List.cons_append, ih]

theorem beforeMarker_of_not_hasMarker (l : List Char) (h : hasMarker l = false) :
    beforeMarker l = l := by
  induction l with
  | nil => rfl
  | cons c rest ih =>
    simp only [hasMarker, Bool.or_eq_false_iff] at h
    simp only [beforeMarker, if_neg (by simp [h.1] : ¬ ((decide (c = '<')
      && decide (rest.head? = some '<')) = true))]
    rw [ih h.2]

theorem head?_beforeMarker (l : List Char) (x : Char)
    (h : (beforeMarker l).head? = some x) : l.head? = some x := by
  cases l with
  | nil => simp [beforeMarker] at h
  | cons c rest =>
    simp only [beforeMarker] at h
    by_cases hc : (decide (c = '<') && decide (rest.head? = some '<')) = true
    · rw [if_pos hc] at h
      simp at h
    · rw [if_neg hc] at h
      simpa using h

theorem hasMarker_beforeMarker (l : List Char) :
    hasMarker (beforeMarker l) = false := by
  induction l with
  | nil => rfl
  | cons c rest ih =>
    simp only [beforeMarker]
    by_cases hc : (decide (c = '<') && decide (rest.head? = some '<')) = true
    · rw [if_pos hc]
      rfl
    · rw [if_neg hc]
      simp only [hasMarker, ih, Bool.or_false, Bool.and_eq_true,
        decide_eq_true_eq]
      by_contra hx
      simp only [Bool.not_eq_false, Bool.and_eq_true, decide_eq_true_eq] at hx
      exact hc (by simp [hx.1, head?_beforeMarker rest _ hx.2])

theorem findallAux_eq_nil_of_not_hasMarker :
    ∀ (fuel : Nat) (l : List Char), hasMarker l = false → findallAux fuel l = [] := by
  intro fuel
  induction fuel with
  | zero => intro l _; rfl
  | succ fuel ih =>
    intro l h
    cases l with
    | nil => rfl
    | cons c rest =>
      simp only [hasMarker, Bool.or_eq_false_iff] at h
      simp only [findallAux, if_neg (by simp [h.1] : ¬ ((decide (c = '<')
        && decide (rest.head? = some '<')) = true))]
      exact ih rest h.2

theorem hasClose_cons_of (c : Char) (rest : List Char)
    (h : hasClose rest = true) : hasClose (c :: rest) = true := by
  simp [hasClose, h]

theorem hasClose_append_right (a b : List Char) (h : hasClose b = true) :
    hasClose (a ++ b) = true := by
  induction a with
  | nil => simpa using h
  | cons c a ih => exact hasClose_cons_of c _ ih

theorem hasClose_eq_false_of_suffix {a b : List Char} (hs : a <:+ b)
    (h : hasClose b = false) : hasClose a = false := by
  obtain ⟨t, rfl⟩ := hs
  by_contra hx
  simp only [Bool.not_eq_false] at hx
  rw [hasClose_append_right t a hx] at h
  cases h

theorem fromMarker_suffix (l : List Char) : fromMarker l <:+ l := by
  induction l with
  | nil => exact List.nil_suffix
  | cons c rest ih =>
    simp only [fromMarker]
    by_cases hc : (decide (c = '<') && decide (rest.head? = some '<')) = true
    · rw [if_pos hc]
    · rw [if_neg hc]
      exact ih.trans (List.suffix_cons c rest)

theorem tryQuestion_eq_none_of_not_hasClose (l : List Char)
    (h : hasClose l = false) : tryQuestion l = none := by
  unfold tryQuestion
  by_cases hr : l.takeWhile (fun c => c ≠ '>') = []
  · rw [if_pos hr]
  · rw [if_neg hr]
    have hdrop : hasClose (l.dropWhile (fun c => c ≠ '>')) = false :=
      hasClose_eq_false_of_suffix (List.dropWhile_suffix _) h
    have hfalse : ¬ ((decide ((l.dropWhile (fun c => c ≠ '>')).head? = some '>')
        && decide ((l.dropWhile (fun c => c ≠ '>')).tail.head? = some '>')) = true) := by
      intro hb
      simp only [Bool.and_eq_true, decide_eq_true_eq] at hb
      cases hd : l.dropWhile (fun c => c ≠ '>') with
      | nil => rw [hd] at hb; simp at hb
      | cons a t =>
        rw [hd] at hb hdrop
        simp only [List.head?_cons, Option.some.injEq, List.tail_cons] at hb
        simp only [hasClose, Bool.or_eq_false_iff, Bool.and_eq_false_iff] at hdrop
        rcases hdrop.1 with h1 | h2
        · simp [hb.1] at h1
        · simp [hb.2] at h2
    rw [if_neg hfalse]

theorem findallAux_eq_nil_of_not_hasClose :
    ∀ (fuel : Nat) (l : List Char), hasClose (fromMarker l) = false →
      findallAux fuel l = [] := by
  intro fuel
  induction fuel with
  | zero => intro l _; rfl
  | succ fuel ih =>
    intro l h
    cases l with
    | nil => rfl
    | cons c rest =>
      by_cases hc : (decide (c = '<') && decide (rest.head? = some '<')) = true
      · have hfm : fromMarker (c :: rest) = c :: rest := by
          simp only [fromMarker, if_pos hc]
        rw [hfm] at h
        have hrest : hasClose rest = false := by
          simp only [hasClose, Bool.or_eq_false_iff] at h
          exact h.2
        have htail : hasClose rest.tail = false := by
          cases rest with
          | nil => rfl
          | cons a t =>
            simp only [hasClose, Bool.or_eq_false_iff] at hrest
            exact hrest.2
        rw [findallAux, if_pos hc, tryQuestion_eq_none_of_not_hasClose _ htail]
        exact ih rest (hasClose_eq_false_of_suffix (fromMarker_suffix rest) hrest)
      · have hfm : fromMarker (c :: rest) = fromMarker rest := by
          simp only [fromMarker, if_neg hc]
        rw [hfm] at h
        rw [findallAux, if_neg hc]
        exact ih rest h

/-- C8: follow-up extraction is idempotent on already-clean text: the visible
content left by a first extraction pass is returned unchanged by a second
pass, which finds no follow-up questions, and it contains no remaining `<<`
marker. -/
theorem extract_followup_questions_idempotent (x : String) :
    (extract_followup_questions ((extract_followup_questions x).1)).1
        = (extract_followup_questions x).1
    ∧ (extract_followup_questions ((extract_followup_questions x).1)).2 = []
    ∧ hasMarker ((extract_followup_questions x).1).data = false := by
  refine ⟨?_, ?_, hasMarker_beforeMarker x.data⟩
  · show (⟨beforeMarker (beforeMarker x.data)⟩ : String) = ⟨beforeMarker x.data⟩
    rw [beforeMarker_of_not_hasMarker _ (hasMarker_beforeMarker x.data)]
  · show ((findall (beforeMarker x.data)).map fun q => (⟨q⟩ : String)) = []
    rw [findall,
      findallAux_eq_nil_of_not_hasMarker _ _ (hasMarker_beforeMarker x.data)]
    rfl

/-- C9: for a string that contains an open marker `<<` never followed by a
`>>` close marker, extraction returns the prefix before the first `<<` as
visible content and an empty follow-up list, so everything from the
unmatched marker on is dropped from the visible answer. -/
theorem extract_followup_questions_unmatched (s : String)
    (h1 : hasMarker s.data = true)
    (h2 : hasClose (fromMarker s.data) = false) :
    extract_followup_questions s = (⟨beforeMarker s.data⟩, []) := by
  have h3 : hasMarker s.data = true := h1
  clear h3
  show ((⟨beforeMarker s.data⟩ : String),
      (findall s.data).map fun q => (⟨q⟩ : String)) = _
  rw [findall, findallAux_eq_nil_of_not_hasClose _ _ h2]
  rfl

/-- C9 witness: the concrete string `"abc<<def"` has an unmatched open
marker; extraction keeps only `"abc"` and finds no follow-up questions. -/
theorem extract_followup_questions_unmatched_witness :
    extract_followup_questions "abc<<def" = ("abc", []) := by
  have h := extract_followup_questions_unmatched "abc<<def" (by decide) (by decide)
  exact h.trans (by decide)

/-! ### Streaming state-machine lemmas -/

theorem runStreamFrom_append (suggest : Bool) :
    ∀ (xs ys : List (List Char)) (st : Bool × List Char),
      runStreamFrom suggest st (xs ++ ys)
        = ((runStreamFrom suggest (runStreamFrom suggest st xs).1 ys).1,
           (runStreamFrom suggest st xs).2
             ++ (runStreamFrom suggest (runStreamFrom suggest st xs).1 ys).2) := by
  intro xs
  induction xs with
  | nil => intro ys st; simp [runStreamFrom]
  | cons x xs ih =>
    intro ys st
    simp only [List.cons_append, runStreamFrom, List.append_eq]
    rw [ih]
    simp [List.append_assoc]

theorem runStreamFrom_clean (buffer : List Char) :
    ∀ (pre : List (List Char)), (∀ x ∈ pre, hasMarker x = false) →
      runStreamFrom true (false, buffer) pre = ((false, buffer), pre) := by
  intro pre
  induction pre with
  | nil => intro _; rfl
  | cons x pre ih =>
    intro h
    have hx : hasMarker x = false := h x (List.mem_cons_self x pre)
    have hrest := ih fun y hy => h y (List.mem_cons_of_mem x hy)
    simp [runStreamFrom, stepDelta, hx, hrest]

theorem runStreamFrom_accumulating_silent :
    ∀ (post : List (List Char)) (buffer : List Char),
      (∀ x ∈ post, hasMarker x = true → beforeMarker x = []) →
      ((runStreamFrom true (true, buffer) post).2).flatten = [] := by
  intro post
  induction post with
  | nil => intro buffer _; rfl
  | cons x post ih =>
    intro buffer h
    have hrest := ih (buffer ++ fromMarker x)
      fun y hy hm => h y (List.mem_cons_of_mem x hy) hm
    have hrest2 := ih (buffer ++ x)
      fun y hy hm => h y (List.mem_cons_of_mem x hy) hm
    by_cases hx : hasMarker x = true
    · have hb : beforeMarker x = [] := h x (List.mem_cons_self x post) hx
      simp [runStreamFrom, stepDelta, hx, hb, hrest]
    · have hx2 : hasMarker x = false := by simpa using hx
      simp [runStreamFrom, stepDelta, hx2, hrest2]

theorem hasMarker_append_left (a b : List Char) (h : hasMarker a = true) :
    hasMarker (a ++ b) = true := by
  induction a with
  | nil => cases h
  | cons c a ih =>
    simp only [hasMarker, Bool.or_eq_true] at h ⊢
    rcases h with h1 | h2
    · left
      simp only [Bool.and_eq_true, decide_eq_true_eq] at h1 ⊢
      refine ⟨h1.1, ?_⟩
      cases a with
      | nil => simp at h1
      | cons e t => simpa using h1.2
    · right
      exact ih h2

theorem hasMarker_append_right (a b : List Char) (h : hasMarker b = true) :
    hasMarker (a ++ b) = true := by
  induction a with
  | nil => simpa using h
  | cons c a ih =>
    simp only [List.cons_append, hasMarker, Bool.or_eq_true]
    right
    exact ih

theorem hasMarker_flatten_eq_false {L : List (List Char)}
    (h : hasMarker L.flatten = false) : ∀ x ∈ L, hasMarker x = false := by
  induction L with
  | nil => intro x hx; cases hx
  | cons y L ih =>
    intro x hx
    rw [List.flatten_cons] at h
    have hy : hasMarker y = false := by
      by_contra hc
      simp only [Bool.not_eq_false] at hc
      rw [hasMarker_append_left _ _ hc] at h
      cases h
    have hL : hasMarker L.flatten = false := by
      by_contra hc
      simp only [Bool.not_eq_false] at hc
      rw [hasMarker_append_right _ _ hc] at h
      cases h
    rcases List.mem_cons.mp hx with rfl | hx'
    · exact hy
    · exact ih hL x hx'

theorem beforeMarker_append_marker (t : List Char) :
    ∀ (q : List Char), hasMarker (q ++ ['<']) = false →
      beforeMarker (q ++ '<' :: '<' :: t) = q := by
  intro q
  induction q with
  | nil =>
    intro _
    simp [beforeMarker]
  | cons c q ih =>
    intro h
    simp only [List.cons_append, hasMarker, Bool.or_eq_false_iff,
      List.append_eq] at h
    simp only [List.cons_append, beforeMarker, List.append_eq]
    have hcond : ¬ ((decide (c = '<')
        && decide ((q ++ '<' :: '<' :: t).head? = some '<')) = true) := by
      intro hb
      simp only [Bool.and_eq_true, decide_eq_true_eq] at hb
      obtain ⟨hc1, hc2⟩ := hb
      cases q with
      | nil =>
        simp only [List.nil_append] at h
        rw [hc1] at h
        simp at h
      | cons e q' =>
        have he : e = '<' := by simpa using hc2
        rw [hc1, he] at h
        simp at h
    rw [if_neg hcond, ih h.2]

theorem fromMarker_of_hasMarker :
    ∀ (l : List Char), hasMarker l = true →
      ∃ t, fromMarker l = '<' :: '<' :: t := by
  intro l
  induction l with
  | nil => intro h; cases h
  | cons c rest ih =>
    intro h
    by_cases hc : (decide (c = '<') && decide (rest.head? = some '<')) = true
    · have hparts : c = '<' ∧ rest.head? = some '<' := by simpa using hc
      cases rest with
      | nil => simp at hparts
      | cons e t =>
        refine ⟨t, ?_⟩
        simp only [fromMarker, if_pos hc]
        have he : e = '<' := by simpa using hparts.2
        rw [hparts.1, he]
    · simp only [fromMarker, if_neg hc]
      apply ih
      simp only [hasMarker, Bool.or_eq_true] at h
      rcases h with h1 | h2
      · exact absurd h1 hc
      · exact h2

/-- C1 counterexample: with follow-up questions requested, after the first
delta `"<<"` the machine has entered the accumulating state having emitted
nothing; yet processing the further delta `"b<<"` emits `"b"` as visible
content, and `"b"` is not appended to the follow-up buffer. -/
theorem run_with_streaming_accumulating_cex :
    (runStream true [['<', '<']]).1.1 = true
    ∧ (runStream true [['<', '<']]).2 = []
    ∧ (runStream true [['<', '<'], ['b', '<', '<']]).2 = [['b']]
    ∧ (runStream true [['<', '<'], ['b', '<', '<']]).1.2
        = ['<', '<', '<', '<'] := by
  decide

/-- C1 (amended): once the machine is accumulating (with follow-up questions
requested), a delta without `<<` is appended to the buffer in full and emits
nothing; a delta that does contain `<<` emits exactly its content before its
first `<<` as visible content and appends only its content from the marker
on to the buffer. -/
theorem stepDelta_accumulating (buffer content : List Char) :
    (hasMarker content = false →
      stepDelta true true buffer content = ((true, buffer ++ content), []))
    ∧ (hasMarker content = true →
      ((stepDelta true true buffer content).2).flatten = beforeMarker content
      ∧ (stepDelta true true buffer content).1
          = (true, buffer ++ fromMarker content)) := by
  constructor
  · intro h
    simp [stepDelta, h]
  · intro h
    refine ⟨?_, by simp [stepDelta, h]⟩
    by_cases hb : beforeMarker content = []
    · simp [stepDelta, h, hb]
    · simp [stepDelta, h, hb]

/-- C1 amended-claim witness: both cases of `stepDelta_accumulating`
instantiated at concrete buffers and deltas. -/
theorem stepDelta_accumulating_witness :
    stepDelta true true ['<', '<'] ['x'] = ((true, ['<', '<', 'x']), [])
    ∧ ((stepDelta true true ['<', '<'] ['b', '<', '<']).2).flatten = ['b']
    ∧ (stepDelta true true ['<', '<'] ['b', '<', '<']).1
        = (true, ['<', '<', '<', '<']) := by
  have h1 := (stepDelta_accumulating ['<', '<'] ['x']).1 (by decide)
  have h2 := (stepDelta_accumulating ['<', '<'] ['b', '<', '<']).2 (by decide)
  exact ⟨h1.trans (by decide), h2.1.trans (by decide), h2.2.trans (by decide)⟩

/-- C2 counterexample: the full response `"a<<b>>"` is well-formed (it
carries exactly the delimited follow-up question `"b"`), but for the split
`["a<", "<b>>"]`, which cuts the open marker across two deltas, the
streaming pass emits the whole response as visible content instead of the
non-streaming visible prefix `"a"`. -/
theorem run_with_streaming_refines_cex :
    (extract_followup_questions "a<<b>>").2 = ["b"]
    ∧ "a<".data ++ "<b>>".data = "a<<b>>".data
    ∧ ((runStream true ["a<".data, "<b>>".data]).2).flatten = "a<<b>>".data
    ∧ ((extract_followup_questions "a<<b>>").1).data = "a".data
    ∧ ((runStream true ["a<".data, "<b>>".data]).2).flatten
        ≠ ((extract_followup_questions "a<<b>>").1).data := by
  decide

/-- C2 (amended): with follow-up questions requested, the streamed visible
content concatenated in order equals the non-streaming visible content for
the same full response, provided the split is marker-clean: either no delta
and no boundary carries `<<` at all, or some delta `d` contains the
response's first `<<` in full (nothing before it, across earlier deltas and
`d`'s own prefix, forms or starts a `<<`) and every later delta containing
`<<` carries nothing before its first `<<`. -/
theorem run_with_streaming_refines (deltas pre post : List (List Char))
    (d : List Char) :
    (hasMarker deltas.flatten = false →
      ((runStream true deltas).2).flatten
        = ((extract_followup_questions ⟨deltas.flatten⟩).1).data)
    ∧ (hasMarker d = true →
       hasMarker ((pre.flatten ++ beforeMarker d) ++ ['<']) = false →
       (∀ x ∈ post, hasMarker x = true → beforeMarker x = []) →
       ((runStream true (pre ++ d :: post)).2).flatten
         = ((extract_followup_questions ⟨(pre ++ d :: post).flatten⟩).1).data) := by
  constructor
  · intro h
    have hall := hasMarker_flatten_eq_false h
    show ((runStreamFrom true (false, []) deltas).2).flatten
      = beforeMarker deltas.flatten
    rw [runStreamFrom_clean [] deltas hall,
      beforeMarker_of_not_hasMarker _ h]
  · intro hM hpre hpost
    have hallpre : ∀ x ∈ pre, hasMarker x = false := by
      apply hasMarker_flatten_eq_false
      by_contra hc
      simp only [Bool.not_eq_false] at hc
      have h2 := hasMarker_append_left pre.flatten (beforeMarker d ++ ['<']) hc
      rw [← List.append_assoc] at h2
      rw [hpre] at h2
      cases h2
    obtain ⟨t, ht⟩ := fromMarker_of_hasMarker d hM
    have hd2 : beforeMarker d ++ '<' :: '<' :: t = d := by
      rw [← ht]
      exact beforeMarker_append_fromMarker d
    have e1 := runStreamFrom_clean [] pre hallpre
    have e2 := runStreamFrom_accumulating_silent post (fromMarker d) hpost
    have hflat : (pre ++ d :: post).flatten
        = (pre.flatten ++ beforeMarker d) ++ ('<' :: '<' :: (t ++ post.flatten)) := by
      conv_lhs => rw [List.flatten_append, List.flatten_cons]
      conv_lhs => rw [← hd2]
      simp [List.append_assoc]
    show ((runStreamFrom true (false, []) (pre ++ d :: post)).2).flatten
      = beforeMarker (pre ++ d :: post).flatten
    rw [runStreamFrom_append true pre (d :: post) (false, []), e1, hflat,
      beforeMarker_append_marker (t ++ post.flatten)
        (pre.flatten ++ beforeMarker d) hpre]
    simp only [runStreamFrom, stepDelta, hM, Bool.and_true, Bool.and_self,
      if_pos, List.nil_append]
    by_cases hb : beforeMarker d = []
    · simp [hb, e2]
    · simp [hb, e2]

/-- C2 amended-claim witness: a marker-free split of `"Hello"`, and the
spec's streaming scenario `"Here" / " is <<" / "Q1?>>"`, both instantiating
`run_with_streaming_refines` with its hypotheses discharged. -/
theorem run_with_streaming_refines_witness :
    ((runStream true ["He".data, "llo".data]).2).flatten = "Hello".data
    ∧ ((runStream true (["Here".data] ++ " is <<".data :: ["Q1?>>".data])).2).flatten
        = "Here is ".data := by
  have h1 := (run_with_streaming_refines ["He".data, "llo".data]
    ["Here".data] ["Q1?>>".data] " is <<".data).1 (by decide)
  have h2 := (run_with_streaming_refines ["He".data, "llo".data]
    ["Here".data] ["Q1?>>".data] " is <<".data).2 (by decide) (by decide)
    (by decide)
  exact ⟨h1.trans (by decide), h2.trans (by decide)⟩

/-! ### Search-query extraction -/

theorem searchFromToolCalls_first (pre : List ToolCall) (tool : ToolCall)
    (post : List ToolCall) (v : String)
    (hpre : ∀ t ∈ pre, ¬ (t.type = "function" ∧ t.name = "search_sources"
      ∧ ((t.arguments.lookup "search_query").getD NO_RESPONSE) ≠ NO_RESPONSE))
    (htype : tool.type = "function") (hname : tool.name = "search_sources")
    (hv : ((tool.arguments.lookup "search_query").getD NO_RESPONSE) = v)
    (hv0 : v ≠ NO_RESPONSE) :
    searchFromToolCalls (pre ++ tool :: post) = some v := by
  induction pre with
  | nil =>
    simp only [List.nil_append, searchFromToolCalls,
      if_neg (not_not_intro htype), if_pos hname, hv, if_pos hv0]
  | cons t pre ih =>
    have hrec := ih fun t' ht' => hpre t' (List.mem_cons_of_mem t ht')
    have ht := hpre t (List.mem_cons_self t pre)
    simp only [List.cons_append, searchFromToolCalls]
    by_cases h1 : t.type = "function"
    · rw [if_neg (not_not_intro h1)]
      by_cases h2 : t.name = "search_sources"
      · rw [if_pos h2]
        have h3 : ¬ (((t.arguments.lookup "search_query").getD NO_RESPONSE)
            ≠ NO_RESPONSE) := fun hx => ht ⟨h1, h2, hx⟩
        rw [if_neg h3]
        exact hrec
      · rw [if_neg h2]
        exact hrec
    · rw [if_pos h1]
      exact hrec

theorem searchFromToolCalls_none (l : List ToolCall)
    (h : ∀ t ∈ l, t.type = "function" → t.name = "search_sources" →
      ((t.arguments.lookup "search_query").getD NO_RESPONSE) = NO_RESPONSE) :
    searchFromToolCalls l = none := by
  induction l with
  | nil => rfl
  | cons t rest ih =>
    have hrec := ih fun t' ht' => h t' (List.mem_cons_of_mem t ht')
    simp only [searchFromToolCalls]
    by_cases h1 : t.type = "function"
    · rw [if_neg (not_not_intro h1)]
      by_cases h2 : t.name = "search_sources"
      · rw [if_pos h2]
        have h3 := h t (List.mem_cons_self t rest) h1 h2
        rw [if_neg (not_not_intro h3)]
        exact hrec
      · rw [if_neg h2]
        exact hrec
    · rw [if_pos h1]
      exact hrec

/-- C6: the extraction policy of `get_search_query`.  (a) The first
`search_sources` function tool call whose parsed `search_query` differs from
the sentinel `"0"` has that value returned.  (b) With tool calls present but
none carrying a non-sentinel `search_query` (the key defaulting to the
sentinel when absent), the raw user query is returned.  (c) With no tool
calls and nonempty text content not equal to `"0"` after trimming, that text
is returned.  (d) With neither a matching tool call nor usable text (no
content, empty content, or content trimming to the sentinel), the raw user
query is returned. -/
theorem get_search_query_policy (rm : ResponseMessage) (user_query v : String)
    (pre post : List ToolCall) (tool : ToolCall) (txt : String) :
    (rm.tool_calls = pre ++ tool :: post →
      (∀ t ∈ pre, ¬ (t.type = "function" ∧ t.name = "search_sources"
        ∧ ((t.arguments.lookup "search_query").getD NO_RESPONSE) ≠ NO_RESPONSE)) →
      tool.type = "function" → tool.name = "search_sources" →
      ((tool.arguments.lookup "search_query").getD NO_RESPONSE) = v →
      v ≠ NO_RESPONSE →
      get_search_query rm user_query = v)
    ∧ (rm.tool_calls ≠ [] →
      (∀ t ∈ rm.tool_calls, t.type = "function" → t.name = "search_sources" →
        ((t.arguments.lookup "search_query").getD NO_RESPONSE) = NO_RESPONSE) →
      get_search_query rm user_query = user_query)
    ∧ (rm.tool_calls = [] → rm.content = some txt → txt ≠ "" →
      pyStrip txt ≠ NO_RESPONSE →
      get_search_query rm user_query = txt)
    ∧ (rm.tool_calls = [] →
      (rm.content = none ∨ rm.content = some ""
        ∨ (rm.content = some txt ∧ pyStrip txt = NO_RESPONSE)) →
      get_search_query rm user_query = user_query) := by
  refine ⟨?_, ?_, ?_, ?_⟩
  · intro hcalls hpre htype hname hv hv0
    have hne : rm.tool_calls ≠ [] := by
      rw [hcalls]
      simp
    rw [get_search_query, if_pos hne, hcalls,
      searchFromToolCalls_first pre tool post v hpre htype hname hv hv0]
  · intro hne hall
    rw [get_search_query, if_pos hne, searchFromToolCalls_none _ hall]
  · intro h0 hc hne htrim
    rw [get_search_query, if_neg (not_not_intro h0), hc]
    simp only [if_pos hne, if_pos htrim]
  · intro h0 hcases
    rw [get_search_query, if_neg (not_not_intro h0)]
    rcases hcases with hc | hc | ⟨hc, htr⟩
    · rw [hc]
    · rw [hc]
      simp
    · rw [hc]
      by_cases hne : txt ≠ ""
      · simp only [if_pos hne, if_neg (not_not_intro htr)]
      · simp only [if_neg hne]

/-- C6 witness: all four policy cases of `get_search_query_policy`
instantiated at concrete responses. -/
theorem get_search_query_policy_witness :
    get_search_query ⟨[⟨"function", "other", []⟩,
        ⟨"function", "search_sources", [("search_query", "contratos")]⟩],
        none⟩ "raw" = "contratos"
    ∧ get_search_query ⟨[⟨"function", "search_sources",
        [("search_query", "0")]⟩], none⟩ "raw" = "raw"
    ∧ get_search_query ⟨[], some "motivo da rescisao"⟩ "raw"
        = "motivo da rescisao"
    ∧ get_search_query ⟨[], some " 0 "⟩ "raw" = "raw" := by
  refine ⟨?_, ?_, ?_, ?_⟩
  · exact (get_search_query_policy
      ⟨[⟨"function", "other", []⟩, ⟨"function", "search_sources",
        [("search_query", "contratos")]⟩], none⟩
      "raw" "contratos" [⟨"function", "other", []⟩] []
      ⟨"function", "search_sources", [("search_query", "contratos")]⟩ "t").1
      rfl (by decide) rfl rfl rfl (by decide)
  · exact (get_search_query_policy
      ⟨[⟨"function", "search_sources", [("search_query", "0")]⟩], none⟩
      "raw" "v" [] [] ⟨"f", "n", []⟩ "t").2.1 (by decide) (by decide)
  · exact (get_search_query_policy ⟨[], some "motivo da rescisao"⟩
      "raw" "v" [] [] ⟨"f", "n", []⟩ "motivo da rescisao").2.2.1
      rfl rfl (by decide) (by decide)
  · exact (get_search_query_policy ⟨[], some " 0 "⟩
      "raw" "v" [] [] ⟨"f", "n", []⟩ " 0 ").2.2.2
      rfl (Or.inr (Or.inr ⟨rfl, by decide⟩))

/-! ### Retrieval parameters in pure-vector mode -/

/-- C10: with `retrieval_mode = "vectors"`, both the vision approach and the
retrieve-then-read approach call the search collaborator with
`use_semantic_ranker` and `use_semantic_captions` false (by truthiness) and
a null text query, whatever the `semantic_ranker` / `semantic_captions`
override flags. -/
theorem vectors_mode_search_args (o : Overrides) (q1 q2 : String)
    (h : o.retrieval_mode = some "vectors") :
    vision_search_args o q1 = ⟨none, false, false⟩
    ∧ rtr_search_args o q2 = ⟨none, false, false⟩ := by
  have hht : ((o.retrieval_mode == some "text")
      || (o.retrieval_mode == some "hybrid")
      || (o.retrieval_mode == none)) = false := by
    rw [h]
    decide
  constructor <;> simp [vision_search_args, rtr_search_args, hht]

/-- C10 witness: concrete overrides with both semantic flags set but mode
`"vectors"`. -/
theorem vectors_mode_search_args_witness :
    vision_search_args ⟨some "vectors", true, true⟩ "qa" = ⟨none, false, false⟩
    ∧ rtr_search_args ⟨some "vectors", true, true⟩ "qb" = ⟨none, false, false⟩ := by
  exact ⟨(vectors_mode_search_args ⟨some "vectors", true, true⟩ "qa" "x" rfl).1,
    (vectors_mode_search_args ⟨some "vectors", true, true⟩ "x" "qb" rfl).2⟩

/-! ### The distillation token ceiling -/

theorem spaceJoinChars_length (c : Char) (rest : List Char) :
    (spaceJoinChars (c :: rest)).length = 2 * (c :: rest).length - 1 := by
  induction rest generalizing c with
  | nil => rfl
  | cons c2 r ih =>
    have h := ih c2
    simp only [spaceJoinChars, List.length_cons] at h ⊢
    omega

/-- C7 counterexample: for model limit 4000 and question `"x"` the request
string has literal length 28, but the code's ceiling is `4000 − 55 = 3945`
(55 being the length of the request's characters joined by spaces), not
`4000 − 28`. -/
theorem query_distillation_max_tokens_cex :
    query_distillation_max_tokens 4000 "x" = 3945
    ∧ ((user_query_request "x").length : Int) = 28
    ∧ query_distillation_max_tokens 4000 "x"
        ≠ 4000 - ((user_query_request "x").length : Int) := by
  decide

/-- C7 (amended): the distillation token ceiling equals the model's token
limit minus `2·n − 1` where `n` is the literal character length of the
rewritten request string — the effect of Python's `" ".join` applied to the
request string rather than to a list of strings. -/
theorem query_distillation_max_tokens_eq (limit : Int) (q : String) :
    query_distillation_max_tokens limit q
      = limit - (2 * ((user_query_request q).length : Int) - 1) := by
  have hG : "Generate search query for: ".data
      = 'G' :: "enerate search query for: ".data := by decide
  have hdata : (user_query_request q).data
      = 'G' :: ("enerate search query for: ".data ++ q.data) := by
    show ("Generate search query for: " ++ q).data = _
    rw [String.data_append, hG, List.cons_append]
  have hlen : ('G' :: ("enerate search query for: ".data ++ q.data)).length
      = (user_query_request q).length := by
    rw [← hdata]
    rfl
  have hpos : 1 ≤ (user_query_request q).length := by
    rw [← hlen]
    simp
  rw [query_distillation_max_tokens, hdata, spaceJoinChars_length, hlen]
  omega

end Contratos
